import Mathlib

/-!
Verification of the log error correlation engine (two Python analysis
scripts: a pattern/mention counter over the full log text, and a
context-window / stack-frame / origin correlation pass over the log lines).

Strings are modelled as `List Char`; Python integers as `Int` (or `Nat`
where the source value is a non-negative index); the regular expressions
of the source are modelled by explicit backtracking matchers that follow
Python `re` semantics (leftmost search, greedy / lazy repetition over
character classes, alternation trying the left branch first, and
non-overlapping continuation for `findall`).
-/

abbrev Str := List Char

/-- First success of `f` over a list of candidates (backtracking search). -/
def firstSome {α β : Type} (f : α → Option β) : List α → Option β
  | [] => none
  | a :: as =>
    match f a with
    | some b => some b
    | none => firstSome f as

/-- Candidate repetition lengths for a greedy repetition: `n, n-1, ..., 0`. -/
def downFrom : Nat → List Nat
  | 0 => [0]
  | n + 1 => (n + 1) :: downFrom n

/-- Candidate repetition lengths for a lazy repetition: `0, 1, ..., n`. -/
def upTo (n : Nat) : List Nat := List.range (n + 1)

/-- ASCII lower-casing of a character, as used by `re.IGNORECASE` on the
case-sensitive parts of the configured patterns. -/
def charLower (c : Char) : Char :=
  if 'A' ≤ c ∧ c ≤ 'Z' then Char.ofNat (c.toNat + 32) else c

/-- Case-insensitive character comparison. -/
def charEqCI (a b : Char) : Bool := charLower a == charLower b

/-- `\d` character class. -/
def isDigitCh (c : Char) : Bool := '0' ≤ c && c ≤ '9'

/-- `.` character class of Python `re` without `DOTALL`: any char but newline. -/
def notNL (c : Char) : Bool := !(c == '\n')

/-- `\s` character class (whitespace), and `[^\s]` is its negation. -/
def isSpaceCh (c : Char) : Bool :=
  c == ' ' || c == '\t' || c == '\n' || c == '\r' || c == '\x0c' || c == '\x0b'

/-- Case-sensitive: the pattern is a prefix of the input. -/
def litAt : Str → Str → Bool
  | [], _ => true
  | _ :: _, [] => false
  | p :: ps, c :: cs => p == c && litAt ps cs

/-- Case-insensitive prefix test. -/
def litAtCI : Str → Str → Bool
  | [], _ => true
  | _ :: _, [] => false
  | p :: ps, c :: cs => charEqCI p c && litAtCI ps cs

/-- Python's substring containment (`pat in s`). -/
def isSubstr (p : Str) : Str → Bool
  | [] => litAt p []
  | c :: t => litAt p (c :: t) || isSubstr p t

/-- A matcher anchored at the current position: on success it returns the
extracted text (the capture group, or the whole match when the pattern has
no group) together with the total number of characters consumed. -/
abbrev RMatch := Str → Option (Str × Nat)

/-- The pattern of the rule named `Database Config Missing`. -/
def dbPhraseS : String := "Connection configuration is required for undefined"

def dbPhrase : Str := dbPhraseS.toList

/-- The pattern of the rule named `Redis Connection`. -/
def redisPhraseS : String := "Redis connection error"

def redisPhrase : Str := redisPhraseS.toList

/-- The pattern of the rule named `NOGROUP Error`. -/
def nogroupPhraseS : String := "NOGROUP"

def nogroupPhrase : Str := nogroupPhraseS.toList

def timedOutS : String := "timed out"

def timeoutS : String := "timeout"

def healthCheckS : String := "health check"

def failedS : String := "failed"

def healthTimedOutS : String := "health check timed out"

def testSlashS : String := "test/"

def specTsS : String := ".spec.ts"

def specTsColonS : String := ".spec.ts:"

def dotTsColonS : String := ".ts:"

def dotTsS : String := ".ts"

/-- Case-sensitive literal pattern: matches iff it is a prefix. -/
def litM (pat : Str) : RMatch := fun s =>
  if litAt pat s then some (s.take pat.length, pat.length) else none

/-- Case-insensitive literal pattern. -/
def litCIM (pat : Str) : RMatch := fun s =>
  if litAtCI pat s then some (s.take pat.length, pat.length) else none

/-- Alternation: the left branch (with all of its backtracking) is tried
before the right branch, as in `re`. -/
def altM (a b : RMatch) : RMatch := fun s =>
  match a s with
  | some r => some r
  | none => b s

/-- `Connection configuration is required for undefined` (case-sensitive). -/
def dbMatchAt : RMatch := litM dbPhrase

/-- `Redis connection error` (case-sensitive). -/
def redisMatchAt : RMatch := litM redisPhrase

/-- `timed out|timeout` with `re.IGNORECASE`. -/
def timeoutMatchAt : RMatch := altM (litCIM timedOutS.toList) (litCIM timeoutS.toList)

/-- `health check.*failed|health check timed out` with `re.IGNORECASE`:
the first branch matches `health check`, then a greedy `.*` (no newline),
backtracking until `failed` matches; otherwise the literal second branch. -/
def healthMatchAt : RMatch :=
  altM
    (fun s =>
      if litAtCI healthCheckS.toList s then
        let hc := healthCheckS.length
        let rem := s.drop hc
        let run := (rem.takeWhile notNL).length
        firstSome
          (fun j =>
            if litAtCI failedS.toList (rem.drop j) then
              let n := hc + j + failedS.length
              some (s.take n, n)
            else none)
          (downFrom run)
      else none)
    (litCIM healthTimedOutS.toList)

/-- `NOGROUP` (case-sensitive). -/
def nogroupMatchAt : RMatch := litM nogroupPhrase

/-- `test/[^\s]+\.spec\.ts`: literal `test/`, then a greedy non-whitespace
run of length at least one, backtracking until `.spec.ts` matches. -/
def mentionMatchAt : RMatch := fun s =>
  if litAt testSlashS.toList s then
    let rem := s.drop testSlashS.length
    let run := (rem.takeWhile (fun c => !isSpaceCh c)).length
    firstSome
      (fun j =>
        if j == 0 then none
        else if litAt specTsS.toList (rem.drop j) then
          let n := testSlashS.length + j + specTsS.length
          some (s.take n, n)
        else none)
      (downFrom run)
  else none

/-- `test/[^\s]+\.spec\.ts:\d+`: as the mention pattern, followed by a colon
and a greedy non-empty digit run. -/
def testRefMatchAt : RMatch := fun s =>
  if litAt testSlashS.toList s then
    let rem := s.drop testSlashS.length
    let run := (rem.takeWhile (fun c => !isSpaceCh c)).length
    firstSome
      (fun j =>
        if j == 0 then none
        else if litAt specTsColonS.toList (rem.drop j) then
          let u := rem.drop (j + specTsColonS.length)
          let d := (u.takeWhile isDigitCh).length
          if d == 0 then none
          else
            let n := testSlashS.length + j + specTsColonS.length + d
            some (s.take n, n)
        else none)
      (downFrom run)
  else none

/-- `at.*\((.*?\.ts:\d+:\d+)\)`: literal `at`, greedy `.*` (no newline)
backtracking to a `(`, then the lazy group `.*?\.ts:\d+:\d+` followed by
`)`. Returns the capture group and the total match length. -/
def fileMatchAt : RMatch := fun s =>
  match s with
  | 'a' :: 't' :: rem =>
    let run := (rem.takeWhile notNL).length
    firstSome
      (fun j =>
        match rem.drop j with
        | '(' :: t =>
          let run2 := (t.takeWhile notNL).length
          firstSome
            (fun k =>
              let u := t.drop k
              if litAt dotTsColonS.toList u then
                let u2 := u.drop dotTsColonS.length
                let d1 := (u2.takeWhile isDigitCh).length
                if d1 == 0 then none
                else
                  match u2.drop d1 with
                  | ':' :: u3 =>
                    let d2 := (u3.takeWhile isDigitCh).length
                    if d2 == 0 then none
                    else
                      match u3.drop d2 with
                      | ')' :: _ =>
                        let glen := k + dotTsColonS.length + d1 + 1 + d2
                        some (t.take glen, 2 + j + 1 + glen + 1)
                      | _ => none
                  | _ => none
              else none)
            (upTo run2)
        | _ => none)
      (downFrom run)
  | _ => none

/-- `at.*\(([^)]+\.ts):\d+:\d+\)`: literal `at`, greedy `.*` backtracking to
a `(`, then the group `[^)]+\.ts` (greedy, backtracking), then
`:\d+:\d+\)`. Returns the capture group and the total match length. -/
def originMatchAt : RMatch := fun s =>
  match s with
  | 'a' :: 't' :: rem =>
    let run := (rem.takeWhile notNL).length
    firstSome
      (fun j =>
        match rem.drop j with
        | '(' :: t =>
          let run2 := (t.takeWhile (fun c => !(c == ')'))).length
          firstSome
            (fun m =>
              if m == 0 then none
              else
                let u := t.drop m
                if litAt dotTsS.toList u then
                  match u.drop dotTsS.length with
                  | ':' :: u2 =>
                    let d1 := (u2.takeWhile isDigitCh).length
                    if d1 == 0 then none
                    else
                      match u2.drop d1 with
                      | ':' :: u3 =>
                        let d2 := (u3.takeWhile isDigitCh).length
                        if d2 == 0 then none
                        else
                          match u3.drop d2 with
                          | ')' :: _ =>
                            let glen := m + dotTsS.length
                            some (t.take glen, 2 + j + 1 + glen + 1 + d1 + 1 + d2 + 1)
                          | _ => none
                      | _ => none
                  | _ => none
                else none)
            (downFrom run2)
        | _ => none)
      (downFrom run)
  | _ => none

/-- Leftmost search: try the matcher at position `i`, then at `i + 1`, ...;
returns the extracted text, the consumed length, and the match position. -/
def searchFromA (m : RMatch) : Str → Nat → Option (Str × Nat × Nat)
  | [], i =>
    match m [] with
    | some (g, len) => some (g, len, i)
    | none => none
  | c :: t, i =>
    match m (c :: t) with
    | some (g, len) => some (g, len, i)
    | none => searchFromA m t (i + 1)

/-- `re.search`: leftmost match of the pattern in the text. -/
def searchFrom (m : RMatch) (s : Str) : Option (Str × Nat × Nat) :=
  searchFromA m s 0

/-- `re.findall` with positions: repeatedly take the leftmost match and
continue after it (advancing at least one character), collecting
`(extracted text, absolute start, consumed length)` triples. -/
def findallPosAux (m : RMatch) : Nat → Nat → Str → List (Str × Nat × Nat)
  | 0, _, _ => []
  | fuel + 1, off, s =>
    match searchFrom m s with
    | none => []
    | some (g, len, i) =>
      (g, off + i, len) :: findallPosAux m fuel (off + i + max len 1) (List.drop (i + max len 1) s)

def findallPos (m : RMatch) (s : Str) : List (Str × Nat × Nat) :=
  findallPosAux m (s.length + 1) 0 s

/-- `re.findall`, keeping only the extracted texts. -/
def findallRes (m : RMatch) (s : Str) : List Str :=
  (findallPos m s).map (fun e => e.1)

/-- `len(re.findall(...))`. -/
def countMatches (m : RMatch) (s : Str) : Nat :=
  (findallPos m s).length

/- ------------------------------------------------------------------
Pattern matcher, mention extractor and reporter of the first script.
------------------------------------------------------------------- -/

def nameDbS : String := "Database Config Missing"

def nameRedisS : String := "Redis Connection"

def nameTimeoutS : String := "Timeout"

def nameHealthS : String := "Health Check Failed"

def nameNogroupS : String := "NOGROUP Error"

/-- The five rules of `error_patterns` with explicit counts, in declaration
order (the insertion order of the source dictionary). -/
def rulesWith (c1 c2 c3 c4 c5 : Nat) : List (String × Nat) :=
  [(nameDbS, c1), (nameRedisS, c2), (nameTimeoutS, c3), (nameHealthS, c4), (nameNogroupS, c5)]

/-- `error_patterns`: one `len(re.findall(...))` count per rule, over the
full text. -/
def errorPatternCounts (content : Str) : List (String × Nat) :=
  rulesWith (countMatches dbMatchAt content) (countMatches redisMatchAt content)
    (countMatches timeoutMatchAt content) (countMatches healthMatchAt content)
    (countMatches nogroupMatchAt content)

/-- Stable insertion of a keyed count into a list sorted by count
descending: the new element goes before the first strictly smaller or
equal-count element coming later in the original order is impossible, so
before the first element whose count it is at least. -/
def insertDesc {α : Type} (x : α × Nat) : List (α × Nat) → List (α × Nat)
  | [] => [x]
  | y :: ys => if y.2 ≤ x.2 then x :: y :: ys else y :: insertDesc x ys

/-- `sorted(..., key=lambda x: -x[1])`: a stable sort by count descending. -/
def sortDesc {α : Type} : List (α × Nat) → List (α × Nat) :=
  List.foldr insertDesc []

/-- The category view of the reporter: rules sorted by count descending
(stable), keeping only positive counts. -/
def categoryViewOf (l : List (String × Nat)) : List (String × Nat) :=
  (sortDesc l).filter (fun x => decide (0 < x.2))

def occurrencesSuffixS : String := " occurrences"

def colonSepS : String := ": "

/-- The printed category lines: `f'{key}: {count} occurrences'` for every
rule with a positive count, in sorted order. -/
def categoryLines (content : Str) : List String :=
  (categoryViewOf (errorPatternCounts content)).map
    (fun kc => kc.1 ++ colonSepS ++ toString kc.2 ++ occurrencesSuffixS)

/-- `re.findall(r'test/[^\s]+\.spec\.ts', content)`. -/
def testFiles (content : Str) : List Str :=
  findallRes mentionMatchAt content

/-- One `Counter` increment: the first entry with the given key is bumped,
otherwise a new entry with count 1 is appended (dictionaries preserve
insertion order, so keys stay in first-seen order). -/
def bump {α : Type} [DecidableEq α] : List (α × Nat) → α → List (α × Nat)
  | [], t => [(t, 1)]
  | (k, c) :: r, t => if k = t then (k, c + 1) :: r else (k, c) :: bump r t

def tallyAux {α : Type} [DecidableEq α] : List (α × Nat) → List α → List (α × Nat)
  | acc, [] => acc
  | acc, t :: ts => tallyAux (bump acc t) ts

/-- `Counter(tokens)`: occurrence counts keyed in first-seen order. -/
def tally {α : Type} [DecidableEq α] (ts : List α) : List (α × Nat) :=
  tallyAux [] ts

/-- Count lookup in a tally (0 for an absent key). -/
def lookupC {α : Type} [DecidableEq α] : List (α × Nat) → α → Nat
  | [], _ => 0
  | (k, c) :: r, t => if k = t then c else lookupC r t

/-- `Counter(test_files)`. -/
def testFileCounts (content : Str) : List (Str × Nat) :=
  tally (testFiles content)

/-- `Counter.most_common(n)`: the tally sorted by count descending (stable,
so ties stay in first-seen order), truncated to `n` entries. -/
def mostCommon {α : Type} (n : Nat) (t : List (α × Nat)) : List (α × Nat) :=
  (sortDesc t).take n

/-- `len(test_file_counts)`: the number of distinct references. -/
def totalUnique (content : Str) : Nat :=
  (testFileCounts content).length

/- ------------------------------------------------------------------
Context windows, stack-frame parsing, deduplication and origin
correlation of the second script.
------------------------------------------------------------------- -/

/-- `max(0, i - 5)` of the context-window extractor (look-back 5). -/
def contextStartI (i : Int) : Int := max 0 (i - 5)

/-- `min(len(lines), i + 10)` of the context-window extractor (look-ahead 10). -/
def contextEndI (len i : Int) : Int := min len (i + 10)

/-- C1 (counterexample): at center index `C = -1` the extractor clamps the
window start to `0`, so the claimed bound `start ≤ C` fails: the claim's
invariant `0 ≤ start ≤ C ≤ end ≤ L` does not hold for `C < 0`. -/
theorem context_window_bounds_C1_counterexample :
    contextStartI (-1) = 0 ∧ ¬(contextStartI (-1) ≤ (-1 : Int)) := by
  constructor
  · rfl
  · decide

/-- C1 (amended): for every in-range center index `0 ≤ C ≤ L` the context
window returned by the extractor (look-back 5, look-ahead 10) satisfies
`0 ≤ start ≤ C ≤ end ≤ L` and has length at most `5 + 10 + 1`; out-of-range
centers are clamped but may violate `start ≤ C ≤ end`. -/
theorem context_window_bounds_C1 (L C : Int) (h0 : 0 ≤ C) (hL : C ≤ L) :
    0 ≤ contextStartI C ∧ contextStartI C ≤ C ∧ C ≤ contextEndI L C ∧
      contextEndI L C ≤ L ∧ contextEndI L C - contextStartI C ≤ 16 := by
  unfold contextStartI contextEndI
  omega

/-- C1 (witness): the amended bounds at the concrete document length 20 and
center line 10. -/
theorem context_window_bounds_C1_witness :
    0 ≤ contextStartI 10 ∧ contextStartI 10 ≤ 10 ∧ (10 : Int) ≤ contextEndI 20 10 ∧
      contextEndI 20 10 ≤ 20 ∧ contextEndI 20 10 - contextStartI 10 ≤ 16 :=
  context_window_bounds_C1 20 10 (by decide) (by decide)

def unknownS : String := "unknown"

def unknownStr : Str := unknownS.toList

/-- The record built for each line matching the database-config phrase:
1-based line number, first parsed call-site reference (or `unknown`),
first parsed test reference (or `unknown`), and the context snippet
truncated to 500 characters. -/
structure Occ where
  line_num : Nat
  file : Str
  test : Str
  snippet : Str
  deriving DecidableEq, Repr

/-- The stack-frame parser over a context window's text: the leftmost match
of the call-site pattern and, independently, of the test-reference pattern,
each falling back to `unknown`. -/
def stackParse (ctx : Str) : Str × Str :=
  (match searchFrom fileMatchAt ctx with
    | some (g, _, _) => g
    | none => unknownStr,
   match searchFrom testRefMatchAt ctx with
    | some (g, _, _) => g
    | none => unknownStr)

/-- `''.join(lines[a:b])`. -/
def sliceJoin (lines : List Str) (a b : Nat) : Str :=
  ((lines.drop a).take (b - a)).flatten

/-- The scan pass of the second script: for every line containing the
database-config phrase, build the context window `lines[max(0,i-5) :
min(len(lines),i+10)]`, parse it, and record the occurrence. -/
def dbConfigErrors (lines : List Str) : List Occ :=
  (lines.enum.filter (fun ic => isSubstr dbPhrase ic.2)).map
    (fun ic =>
      let i : Nat := ic.1
      let cs := (contextStartI (Int.ofNat i)).toNat
      let ce := (contextEndI (Int.ofNat lines.length) (Int.ofNat i)).toNat
      let context := sliceJoin lines cs ce
      let fp := stackParse context
      { line_num := i + 1
        file := fp.1
        test := fp.2
        snippet := context.take 500 })

/-- The deduplication key of an occurrence. -/
def occKey (e : Occ) : Str × Str := (e.file, e.test)

/-- The dedup-and-report loop: skip occurrences whose key was seen, output
a fresh one, and break once the set of seen keys has reached `cap`. -/
def dedupSummaryAux (cap : Nat) : List (Str × Str) → List Occ → List Occ
  | _, [] => []
  | seen, e :: rest =>
    if occKey e ∈ seen then dedupSummaryAux cap seen rest
    else if cap ≤ seen.length + 1 then [e]
    else e :: dedupSummaryAux cap (occKey e :: seen) rest

/-- The deduplicated error-location summary of the source: it iterates only
`db_config_errors[:20]` with a cap of 5 distinct keys. -/
def dedupSummary (errs : List Occ) : List Occ :=
  dedupSummaryAux 5 [] (errs.take 20)

/-- Modelled from the spec: the summary as the claim states it, iterating
all occurrences (no 20-element truncation) with the same cap of 5. -/
def dedupSummarySpec (errs : List Occ) : List Occ :=
  dedupSummaryAux 5 [] errs

/-- First occurrence of each distinct key, in original order, given keys
already seen. -/
def firstOccByAux {α κ : Type} [DecidableEq κ] (key : α → κ) : List κ → List α → List α
  | _, [] => []
  | seen, x :: xs =>
    if key x ∈ seen then firstOccByAux key seen xs
    else x :: firstOccByAux key (key x :: seen) xs

def firstOccBy {α κ : Type} [DecidableEq κ] (key : α → κ) (xs : List α) : List α :=
  firstOccByAux key [] xs

def dbManagerS : String := "database.manager.ts"

def parseCCS : String := "parseConnectionConfig"

/-- The origin filter: every call-site file parsed from an occurrence's
snippet by the origin pattern is kept when it contains the suspect module
name or when the snippet contains the suspect marker. -/
def originFiles (errs : List Occ) : List Str :=
  errs.flatMap
    (fun err =>
      (findallRes originMatchAt err.snippet).filter
        (fun f => isSubstr dbManagerS.toList f || isSubstr parseCCS.toList err.snippet))

/-- `Counter(origin_files)`. -/
def originTally (errs : List Occ) : List (Str × Nat) :=
  tally (originFiles errs)

/- ------------------------------------------------------------------
Lemmas about leftmost search and findall.
------------------------------------------------------------------- -/

theorem searchFromA_eq_none (m : RMatch) :
    ∀ (s : Str) (i : Nat), searchFromA m s i = none → ∀ k, m (s.drop k) = none := by
  intro s
  induction s with
  | nil =>
    intro i h k
    rw [List.drop_nil]
    cases hm : m [] with
    | none => rfl
    | some r => simp [searchFromA, hm] at h
  | cons c t ih =>
    intro i h k
    cases hm : m (c :: t) with
    | some r => simp [searchFromA, hm] at h
    | none =>
      simp only [searchFromA, hm] at h
      cases k with
      | zero => exact hm
      | succ k' => exact ih (i + 1) h k'

theorem searchFromA_eq_some (m : RMatch) :
    ∀ (s : Str) (i : Nat) (g : Str) (len j : Nat),
      searchFromA m s i = some (g, len, j) →
        i ≤ j ∧ m (s.drop (j - i)) = some (g, len) ∧
          ∀ k, k < j - i → m (s.drop k) = none := by
  intro s
  induction s with
  | nil =>
    intro i g len j h
    cases hm : m [] with
    | none => simp [searchFromA, hm] at h
    | some r =>
      obtain ⟨g0, len0⟩ := r
      simp only [searchFromA, hm, Option.some.injEq, Prod.mk.injEq] at h
      obtain ⟨hg, hlen, hj⟩ := h
      subst hg
      subst hlen
      subst hj
      refine ⟨le_refl _, ?_, ?_⟩
      · simpa using hm
      · intro k hk
        omega
  | cons c t ih =>
    intro i g len j h
    cases hm : m (c :: t) with
    | some r =>
      obtain ⟨g0, len0⟩ := r
      simp only [searchFromA, hm, Option.some.injEq, Prod.mk.injEq] at h
      obtain ⟨hg, hlen, hj⟩ := h
      subst hg
      subst hlen
      subst hj
      refine ⟨le_refl _, ?_, ?_⟩
      · simpa using hm
      · intro k hk
        omega
    | none =>
      simp only [searchFromA, hm] at h
      obtain ⟨h1, h2, h3⟩ := ih (i + 1) g len j h
      refine ⟨by omega, ?_, ?_⟩
      · have hji : j - i = (j - (i + 1)) + 1 := by omega
        rw [hji, List.drop_succ_cons]
        exact h2
      · intro k hk
        cases k with
        | zero => simpa using hm
        | succ k' =>
          rw [List.drop_succ_cons]
          exact h3 k' (by omega)

theorem findallPosAux_mem_le (m : RMatch) :
    ∀ (fuel off : Nat) (s : Str) (e : Str × Nat × Nat),
      e ∈ findallPosAux m fuel off s → off ≤ e.2.1 := by
  intro fuel
  induction fuel with
  | zero =>
    intro off s e he
    simp [findallPosAux] at he
  | succ fuel ih =>
    intro off s e he
    cases hs : searchFrom m s with
    | none => simp [findallPosAux, hs] at he
    | some r =>
      obtain ⟨g, len, i⟩ := r
      simp only [findallPosAux, hs, List.mem_cons] at he
      cases he with
      | inl hh =>
        subst hh
        simp
      | inr hh =>
        have := ih (off + i + max len 1) (List.drop (i + max len 1) s) e hh
        omega

/-- Every pair of entries reported by `findall` is non-overlapping: the
later match starts at or after the end of the earlier one (and strictly
later even for an empty match). -/
theorem findallPosAux_pairwise (m : RMatch) :
    ∀ (fuel off : Nat) (s : Str),
      List.Pairwise (fun a b => a.2.1 + max a.2.2 1 ≤ b.2.1) (findallPosAux m fuel off s) := by
  intro fuel
  induction fuel with
  | zero =>
    intro off s
    simp [findallPosAux]
  | succ fuel ih =>
    intro off s
    cases hs : searchFrom m s with
    | none =>
      simp [findallPosAux, hs]
    | some r =>
      obtain ⟨g, len, i⟩ := r
      simp only [findallPosAux, hs]
      refine List.Pairwise.cons ?_ (ih _ _)
      intro b hb
      have := findallPosAux_mem_le m fuel (off + i + max len 1) (List.drop (i + max len 1) s) b hb
      simp only []
      omega

/-- Every entry reported by `findall` is a genuine match of the pattern at
its reported absolute position, consuming its reported length. -/
theorem findallPosAux_valid (m : RMatch) :
    ∀ (fuel off : Nat) (s : Str) (e : Str × Nat × Nat),
      e ∈ findallPosAux m fuel off s →
        off ≤ e.2.1 ∧ m (s.drop (e.2.1 - off)) = some (e.1, e.2.2) := by
  intro fuel
  induction fuel with
  | zero =>
    intro off s e he
    simp [findallPosAux] at he
  | succ fuel ih =>
    intro off s e he
    cases hs : searchFrom m s with
    | none => simp [findallPosAux, hs] at he
    | some r =>
      obtain ⟨g, len, i⟩ := r
      simp only [findallPosAux, hs, List.mem_cons] at he
      cases he with
      | inl hh =>
        subst hh
        refine ⟨by simp, ?_⟩
        have hsome := searchFromA_eq_some m s 0 g len i hs
        simpa using hsome.2.1
      | inr hh =>
        obtain ⟨h1, h2⟩ := ih (off + i + max len 1) (List.drop (i + max len 1) s) e hh
        refine ⟨by omega, ?_⟩
        rw [List.drop_drop] at h2
        have heq : i + max len 1 + (e.2.1 - (off + i + max len 1)) = e.2.1 - off := by omega
        rw [heq] at h2
        exact h2

theorem findallPos_pairwise (m : RMatch) (s : Str) :
    List.Pairwise (fun a b => a.2.1 + max a.2.2 1 ≤ b.2.1) (findallPos m s) :=
  findallPosAux_pairwise m (s.length + 1) 0 s

theorem findallPos_valid (m : RMatch) (s : Str) (e : Str × Nat × Nat)
    (he : e ∈ findallPos m s) : m (s.drop e.2.1) = some (e.1, e.2.2) := by
  have h := findallPosAux_valid m (s.length + 1) 0 s e he
  simpa using h.2

/- ------------------------------------------------------------------
Lemmas about the stable descending sort.
------------------------------------------------------------------- -/

theorem mem_insertDesc {α : Type} (x y : α × Nat) :
    ∀ l : List (α × Nat), y ∈ insertDesc x l ↔ y = x ∨ y ∈ l := by
  intro l
  induction l with
  | nil => simp [insertDesc]
  | cons z zs ih =>
    by_cases hz : z.2 ≤ x.2
    · simp [insertDesc, hz, List.mem_cons]
    · simp only [insertDesc, if_neg hz, List.mem_cons, ih]
      tauto

theorem insertDesc_perm {α : Type} (x : α × Nat) :
    ∀ l : List (α × Nat), List.Perm (insertDesc x l) (x :: l) := by
  intro l
  induction l with
  | nil => simp [insertDesc]
  | cons z zs ih =>
    by_cases hz : z.2 ≤ x.2
    · simp [insertDesc, hz]
    · simp only [insertDesc, if_neg hz]
      exact (ih.cons z).trans (List.Perm.swap x z zs)

theorem sortDesc_perm {α : Type} :
    ∀ l : List (α × Nat), List.Perm (sortDesc l) l := by
  intro l
  induction l with
  | nil => simp [sortDesc]
  | cons x xs ih =>
    have h1 : sortDesc (x :: xs) = insertDesc x (sortDesc xs) := rfl
    rw [h1]
    exact (insertDesc_perm x (sortDesc xs)).trans (ih.cons x)

theorem pairwise_insertDesc {α : Type} (x : α × Nat) :
    ∀ l : List (α × Nat), List.Pairwise (fun a b => b.2 ≤ a.2) l →
      List.Pairwise (fun a b => b.2 ≤ a.2) (insertDesc x l) := by
  intro l
  induction l with
  | nil =>
    intro _
    simp [insertDesc]
  | cons z zs ih =>
    intro h
    rw [List.pairwise_cons] at h
    obtain ⟨hz, hzs⟩ := h
    by_cases hle : z.2 ≤ x.2
    · simp only [insertDesc, if_pos hle]
      refine List.Pairwise.cons ?_ (List.Pairwise.cons hz hzs)
      intro b hb
      rcases List.mem_cons.mp hb with hb | hb
      · subst hb
        exact hle
      · exact le_trans (hz b hb) hle
    · simp only [insertDesc, if_neg hle]
      refine List.Pairwise.cons ?_ (ih hzs)
      intro b hb
      rcases (mem_insertDesc x b zs).mp hb with hb | hb
      · subst hb
        omega
      · exact hz b hb

theorem sortDesc_pairwise {α : Type} :
    ∀ l : List (α × Nat), List.Pairwise (fun a b => b.2 ≤ a.2) (sortDesc l) := by
  intro l
  induction l with
  | nil => simp [sortDesc]
  | cons x xs ih => exact pairwise_insertDesc x (sortDesc xs) ih

theorem filter_insertDesc {α : Type} (c : Nat) (x : α × Nat) :
    ∀ l : List (α × Nat),
      (insertDesc x l).filter (fun a => a.2 == c) =
        if x.2 == c then x :: l.filter (fun a => a.2 == c)
        else l.filter (fun a => a.2 == c) := by
  intro l
  induction l with
  | nil =>
    simp only [insertDesc]
    by_cases hx : x.2 = c
    · simp [List.filter_cons, hx]
    · simp [List.filter_cons, hx]
  | cons z zs ih =>
    by_cases hle : z.2 ≤ x.2
    · simp only [insertDesc, if_pos hle]
      by_cases hx : x.2 = c
      · simp [List.filter_cons, hx]
      · simp [List.filter_cons, hx]
    · simp only [insertDesc, if_neg hle]
      by_cases hx : x.2 = c
      · by_cases hz : z.2 = c
        · omega
        · simp [List.filter_cons, hx, hz, ih]
      · by_cases hz : z.2 = c
        · simp [List.filter_cons, hx, hz, ih]
        · simp [List.filter_cons, hx, hz, ih]

/-- Stability of the reporter's sort: restricting the sorted list to any
one count value preserves the original (declaration / first-seen) order. -/
theorem sortDesc_filter_stable {α : Type} (c : Nat) :
    ∀ l : List (α × Nat),
      (sortDesc l).filter (fun a => a.2 == c) = l.filter (fun a => a.2 == c) := by
  intro l
  induction l with
  | nil => simp [sortDesc]
  | cons x xs ih =>
    have h1 : sortDesc (x :: xs) = insertDesc x (sortDesc xs) := rfl
    rw [h1, filter_insertDesc c x (sortDesc xs), ih]
    by_cases hx : x.2 = c
    · simp [List.filter_cons, hx]
    · simp [List.filter_cons, hx]

/- ------------------------------------------------------------------
Lemmas about tallies, first occurrences and deduplication.
------------------------------------------------------------------- -/

/-- Occurrence count of a value in a list. -/
def cnt {α : Type} [DecidableEq α] (k : α) : List α → Nat
  | [] => 0
  | a :: l => (if a = k then 1 else 0) + cnt k l

theorem cnt_pos {α : Type} [DecidableEq α] (k : α) :
    ∀ l : List α, 0 < cnt k l ↔ k ∈ l := by
  intro l
  induction l with
  | nil => simp [cnt]
  | cons a l ih =>
    by_cases ha : a = k
    · subst ha
      simp [cnt]
    · simp [cnt, ha, ih, Ne.symm ha]

theorem lookupC_bump {α : Type} [DecidableEq α] (t t' : α) :
    ∀ acc : List (α × Nat),
      lookupC (bump acc t) t' = lookupC acc t' + (if t = t' then 1 else 0) := by
  intro acc
  induction acc with
  | nil =>
    by_cases h : t = t'
    · simp [bump, lookupC, h]
    · simp [bump, lookupC, h]
  | cons kc r ih =>
    obtain ⟨k, c⟩ := kc
    by_cases hk : k = t
    · subst hk
      by_cases h : k = t'
      · simp [bump, lookupC, h]
      · simp [bump, lookupC, h]
    · by_cases h : k = t'
      · subst h
        have hne : t ≠ k := fun hh => hk hh.symm
        simp [bump, lookupC, hk, hne]
      · simp [bump, lookupC, hk, h, ih]

theorem lookupC_tallyAux {α : Type} [DecidableEq α] (t : α) :
    ∀ (ts : List α) (acc : List (α × Nat)),
      lookupC (tallyAux acc ts) t = lookupC acc t + cnt t ts := by
  intro ts
  induction ts with
  | nil => simp [tallyAux, cnt]
  | cons a ts ih =>
    intro acc
    simp only [tallyAux, cnt, ih, lookupC_bump]
    omega

/-- The tally counts every token: looking up any key yields its number of
occurrences in the token list. -/
theorem lookupC_tally {α : Type} [DecidableEq α] (t : α) (ts : List α) :
    lookupC (tally ts) t = cnt t ts := by
  simp [tally, lookupC_tallyAux, lookupC]

theorem keys_bump {α : Type} [DecidableEq α] (t : α) :
    ∀ acc : List (α × Nat),
      (bump acc t).map Prod.fst =
        if t ∈ acc.map Prod.fst then acc.map Prod.fst else acc.map Prod.fst ++ [t] := by
  intro acc
  induction acc with
  | nil => simp [bump]
  | cons kc r ih =>
    obtain ⟨k, c⟩ := kc
    by_cases hk : k = t
    · subst hk
      simp [bump]
    · have hne : t ≠ k := fun hh => hk hh.symm
      by_cases ht : t ∈ r.map Prod.fst
      · simp [bump, hk, ih, hne, ht]
      · simp [bump, hk, ih, hne, ht]

theorem firstOccByAux_congr {α κ : Type} [DecidableEq κ] (key : α → κ) :
    ∀ (xs : List α) (s1 s2 : List κ), (∀ a, a ∈ s1 ↔ a ∈ s2) →
      firstOccByAux key s1 xs = firstOccByAux key s2 xs := by
  intro xs
  induction xs with
  | nil => intro s1 s2 _; rfl
  | cons x xs ih =>
    intro s1 s2 h
    by_cases hx : key x ∈ s1
    · have hx2 : key x ∈ s2 := (h (key x)).mp hx
      simp only [firstOccByAux, if_pos hx, if_pos hx2]
      exact ih s1 s2 h
    · have hx2 : key x ∉ s2 := fun hh => hx ((h (key x)).mpr hh)
      simp only [firstOccByAux, if_neg hx, if_neg hx2]
      refine congrArg _ ?_
      refine ih _ _ ?_
      intro a
      simp [List.mem_cons, h a]

theorem keys_tallyAux {α : Type} [DecidableEq α] :
    ∀ (ts : List α) (acc : List (α × Nat)),
      (tallyAux acc ts).map Prod.fst =
        acc.map Prod.fst ++ firstOccByAux id (acc.map Prod.fst) ts := by
  intro ts
  induction ts with
  | nil => simp [tallyAux, firstOccByAux]
  | cons a ts ih =>
    intro acc
    have h0 : tallyAux acc (a :: ts) = tallyAux (bump acc a) ts := rfl
    rw [h0, ih, keys_bump]
    by_cases ha : a ∈ acc.map Prod.fst
    · rw [if_pos ha]
      have h1 : firstOccByAux id (acc.map Prod.fst) (a :: ts) =
          firstOccByAux id (acc.map Prod.fst) ts := by
        simp only [firstOccByAux, id_eq]
        rw [if_pos ha]
      rw [h1]
    · rw [if_neg ha]
      have h1 : firstOccByAux id (acc.map Prod.fst) (a :: ts) =
          a :: firstOccByAux id (a :: acc.map Prod.fst) ts := by
        simp only [firstOccByAux, id_eq]
        rw [if_neg ha]
      rw [h1]
      have hcongr :
          firstOccByAux id (acc.map Prod.fst ++ [a]) ts =
            firstOccByAux id (a :: acc.map Prod.fst) ts := by
        refine firstOccByAux_congr id ts _ _ ?_
        intro b
        simp [List.mem_append, List.mem_cons]
        tauto
      rw [hcongr, List.append_assoc]
      rfl

/-- The keys of a tally are exactly the distinct tokens in first-seen
order. -/
theorem keys_tally {α : Type} [DecidableEq α] (ts : List α) :
    (tally ts).map Prod.fst = firstOccBy id ts := by
  simp [tally, firstOccBy, keys_tallyAux]

theorem firstOccByAux_subset {α κ : Type} [DecidableEq κ] (key : α → κ) :
    ∀ (xs : List α) (seen : List κ) (a : α),
      a ∈ firstOccByAux key seen xs → a ∈ xs := by
  intro xs
  induction xs with
  | nil => simp [firstOccByAux]
  | cons x xs ih =>
    intro seen a ha
    by_cases hx : key x ∈ seen
    · simp only [firstOccByAux, if_pos hx] at ha
      exact List.mem_cons_of_mem x (ih seen a ha)
    · simp only [firstOccByAux, if_neg hx, List.mem_cons] at ha
      rcases ha with ha | ha
      · exact ha ▸ List.mem_cons_self x xs
      · exact List.mem_cons_of_mem x (ih _ a ha)

theorem firstOccByAux_keys_nodup {α κ : Type} [DecidableEq κ] (key : α → κ) :
    ∀ (xs : List α) (seen : List κ),
      ((firstOccByAux key seen xs).map key).Nodup ∧
        ∀ k ∈ (firstOccByAux key seen xs).map key, k ∉ seen := by
  intro xs
  induction xs with
  | nil => simp [firstOccByAux]
  | cons x xs ih =>
    intro seen
    by_cases hx : key x ∈ seen
    · simpa only [firstOccByAux, if_pos hx] using ih seen
    · obtain ⟨ihn, ihs⟩ := ih (key x :: seen)
      simp only [firstOccByAux, if_neg hx, List.map_cons]
      constructor
      · refine List.Pairwise.cons ?_ ihn
        intro b hb hbx
        exact (ihs b hb) (hbx ▸ List.mem_cons_self _ _)
      · intro k hk
        rcases List.mem_cons.mp hk with hk | hk
        · exact hk ▸ hx
        · intro hkseen
          exact (ihs k hk) (List.mem_cons_of_mem _ hkseen)

theorem dedupSummaryAux_eq :
    ∀ (xs : List Occ) (seen : List (Str × Str)) (cap : Nat), seen.length < cap →
      dedupSummaryAux cap seen xs = (firstOccByAux occKey seen xs).take (cap - seen.length) := by
  intro xs
  induction xs with
  | nil =>
    intro seen cap h
    simp [dedupSummaryAux, firstOccByAux]
  | cons e rest ih =>
    intro seen cap h
    by_cases hk : occKey e ∈ seen
    · simp only [dedupSummaryAux, if_pos hk, firstOccByAux]
      exact ih seen cap h
    · by_cases hcap : cap ≤ seen.length + 1
      · have ht : cap - seen.length = 1 := by omega
        simp only [dedupSummaryAux, if_pos hcap, if_neg hk, firstOccByAux, ht]
        simp
      · have h2 : (occKey e :: seen).length < cap := by
          simp only [List.length_cons]
          omega
        have ht : cap - seen.length = (cap - (occKey e :: seen).length) + 1 := by
          simp only [List.length_cons]
          omega
        simp only [dedupSummaryAux, if_neg hk, if_neg hcap, firstOccByAux, ht,
          List.take_succ_cons]
        rw [ih _ cap h2]

/-- The summary loop equals: first occurrence per distinct key among the
first 20 occurrences, truncated to the first 5 distinct keys. -/
theorem dedupSummary_eq (errs : List Occ) :
    dedupSummary errs = (firstOccBy occKey (errs.take 20)).take 5 := by
  have h := dedupSummaryAux_eq (errs.take 20) [] 5 (by simp)
  simpa [dedupSummary, firstOccBy] using h

/- ------------------------------------------------------------------
Claim theorems.
------------------------------------------------------------------- -/

def siteAS : String := "src/site-a.ts:1:1"

def siteBS : String := "src/site-b.ts:2:2"

def testTS : String := "test/t.spec.ts:3"

def occA : Occ := ⟨1, siteAS.toList, testTS.toList, []⟩

def occB : Occ := ⟨21, siteBS.toList, testTS.toList, []⟩

def cexC3errs : List Occ := List.replicate 20 occA ++ [occB]

/-- C3 (counterexample): with 20 occurrences of one (site, test) pair
followed by a 21st occurrence carrying a fresh pair, the source summary
stops at the 20-element prefix and reports one entry, while iterating all
occurrences as the claim states would report two. -/
theorem dedup_order_C3_counterexample :
    dedupSummary cexC3errs = [occA] ∧ dedupSummarySpec cexC3errs = [occA, occB] := by
  decide

/-- C3 (amended): the summary iterates only the first 20 occurrences in
original document order, keeps the first occurrence of each distinct
(call-site reference, test identifier) pair, and stops once 5 distinct
pairs have been kept. -/
theorem dedup_order_C3 (errs : List Occ) :
    dedupSummary errs = (firstOccBy occKey (errs.take 20)).take 5 :=
  dedupSummary_eq errs

/-- C9: however many occurrences exist, the deduplicated summary holds at
most 5 entries, all with pairwise distinct (site, test) keys. -/
theorem dedup_cap_C9 (errs : List Occ) :
    (dedupSummary errs).length ≤ 5 ∧ ((dedupSummary errs).map occKey).Nodup := by
  rw [dedupSummary_eq]
  constructor
  · rw [List.length_take]
    omega
  · rw [List.map_take]
    refine List.Nodup.sublist (List.take_sublist 5 _) ?_
    exact (firstOccByAux_keys_nodup occKey (errs.take 20) []).1

/-- C10: every summarized entry comes from the first 20 occurrences; the
summary is insensitive to anything beyond index 19, even when fewer than 5
distinct pairs were found among the first 20. -/
theorem dedup_first20_C10 (errs : List Occ) :
    (∀ e, e ∈ dedupSummary errs → e ∈ errs.take 20) ∧
      dedupSummary errs = dedupSummary (errs.take 20) := by
  constructor
  · intro e he
    rw [dedupSummary_eq] at he
    have h1 : e ∈ firstOccBy occKey (errs.take 20) := List.take_subset _ _ he
    exact firstOccByAux_subset occKey (errs.take 20) [] e h1
  · simp [dedupSummary, List.take_take]

/-- C10 (witness): the membership bound applied to a one-element list. -/
theorem dedup_first20_C10_witness : occA ∈ ([occA] : List Occ).take 20 :=
  (dedup_first20_C10 [occA]).1 occA (by decide)

def upperTimedOutS : String := "TIMED OUT"

def upperRedisS : String := "REDIS CONNECTION ERROR"

def noMatchS : String := "x"

/-- C2: each rule's count is the length of the non-overlapping findall
sweep over the full text (not per line); the sweep's entries are genuine
matches at their positions and pairwise non-overlapping; a text with no
match yields count 0; and matching is case-insensitive exactly for the
rules carrying the flag (`TIMED OUT` counts for `Timeout`, but upper-case
text does not count for the case-sensitive `Redis Connection` rule). -/
theorem pattern_counts_C2 (content : Str) :
    errorPatternCounts content =
      [(nameDbS, countMatches dbMatchAt content),
        (nameRedisS, countMatches redisMatchAt content),
        (nameTimeoutS, countMatches timeoutMatchAt content),
        (nameHealthS, countMatches healthMatchAt content),
        (nameNogroupS, countMatches nogroupMatchAt content)] ∧
    (∀ m : RMatch,
      List.Pairwise (fun a b => a.2.1 + max a.2.2 1 ≤ b.2.1) (findallPos m content) ∧
        ∀ e ∈ findallPos m content, m (content.drop e.2.1) = some (e.1, e.2.2)) ∧
    (searchFrom dbMatchAt content = none → countMatches dbMatchAt content = 0) ∧
    countMatches timeoutMatchAt upperTimedOutS.toList = 1 ∧
    countMatches redisMatchAt upperRedisS.toList = 0 ∧
    countMatches redisMatchAt redisPhrase = 1 := by
  refine ⟨rfl, ?_, ?_, by decide, by decide, by decide⟩
  · intro m
    exact ⟨findallPos_pairwise m content, fun e he => findallPos_valid m content e he⟩
  · intro h
    simp [countMatches, findallPos, findallPosAux, h]

/-- C2 (witness): a no-match text counts 0, and the recorded sweep entry
for the database phrase itself is a genuine match at position 0. -/
theorem pattern_counts_C2_witness :
    countMatches dbMatchAt noMatchS.toList = 0 ∧
      dbMatchAt (dbPhrase.drop 0) = some (dbPhrase, dbPhraseS.length) := by
  constructor
  · exact (pattern_counts_C2 noMatchS.toList).2.2.1 (by decide)
  · exact ((pattern_counts_C2 dbPhrase).2.1 dbMatchAt).2 (dbPhrase, 0, dbPhraseS.length)
      (by decide)

def mentionAS : String := "test/a.spec.ts"

def mentionBS : String := "test/b.spec.ts"

def mentionScenS : String := "test/a.spec.ts test/a.spec.ts test/a.spec.ts test/b.spec.ts"

def mentionScen : Str := mentionScenS.toList

/-- C7: the mention tally counts every extracted token (lookup equals the
occurrence count in the findall sweep), its keys are the distinct
references in first-seen order, the reported total is the tally's
cardinality, the top-N listing is sorted by count descending with the
stable sort keeping ties in first-seen order; in the three-`a` / one-`b`
scenario top-2 is `[(a, 3), (b, 1)]` with 2 distinct references. -/
theorem mention_tally_C7 (content : Str) :
    (∀ k : Str, lookupC (testFileCounts content) k = cnt k (testFiles content)) ∧
    ((testFileCounts content).map Prod.fst = firstOccBy id (testFiles content)) ∧
    (totalUnique content = (firstOccBy id (testFiles content)).length) ∧
    (∀ n : Nat, List.Pairwise (fun a b => b.2 ≤ a.2) (mostCommon n (testFileCounts content))) ∧
    (∀ c : Nat, (sortDesc (testFileCounts content)).filter (fun a => a.2 == c) =
      (testFileCounts content).filter (fun a => a.2 == c)) ∧
    mostCommon 2 (testFileCounts mentionScen) = [(mentionAS.toList, 3), (mentionBS.toList, 1)] ∧
    mostCommon 10 (testFileCounts mentionScen) = [(mentionAS.toList, 3), (mentionBS.toList, 1)] ∧
    totalUnique mentionScen = 2 := by
  refine ⟨?_, ?_, ?_, ?_, ?_, by decide, by decide, by decide⟩
  · intro k
    exact lookupC_tally k (testFiles content)
  · exact keys_tally (testFiles content)
  · have h := congrArg List.length (keys_tally (testFiles content))
    rw [List.length_map] at h
    exact h
  · intro n
    exact List.Pairwise.sublist (List.take_sublist n _) (sortDesc_pairwise _)
  · intro c
    exact sortDesc_filter_stable c (testFileCounts content)

theorem rulesWith_nodup (c1 c2 c3 c4 c5 : Nat) : (rulesWith c1 c2 c3 c4 c5).Nodup := by
  refine List.Nodup.of_map Prod.fst ?_
  have hmap : (rulesWith c1 c2 c3 c4 c5).map Prod.fst =
      [nameDbS, nameRedisS, nameTimeoutS, nameHealthS, nameNogroupS] := rfl
  rw [hmap]
  decide

/-- C8: for every assignment of per-rule counts, the category view contains
a rule's entry iff its count is positive, contains no duplicates, is sorted
by count descending, and the stable sort keeps equal-count entries in rule
declaration order (filtering the view to any one count value reproduces the
declaration-order filtering of the rule list). -/
theorem category_view_C8 (c1 c2 c3 c4 c5 : Nat) :
    (∀ r ∈ rulesWith c1 c2 c3 c4 c5,
      (r ∈ categoryViewOf (rulesWith c1 c2 c3 c4 c5) ↔ 0 < r.2)) ∧
    (categoryViewOf (rulesWith c1 c2 c3 c4 c5)).Nodup ∧
    List.Pairwise (fun a b => b.2 ≤ a.2) (categoryViewOf (rulesWith c1 c2 c3 c4 c5)) ∧
    (∀ c : Nat, (categoryViewOf (rulesWith c1 c2 c3 c4 c5)).filter (fun a => a.2 == c) =
      ((rulesWith c1 c2 c3 c4 c5).filter (fun a => decide (0 < a.2))).filter
        (fun a => a.2 == c)) := by
  have hperm := sortDesc_perm (rulesWith c1 c2 c3 c4 c5)
  have hnodup := rulesWith_nodup c1 c2 c3 c4 c5
  refine ⟨?_, ?_, ?_, ?_⟩
  · intro r hr
    constructor
    · intro hv
      have h2 := (List.mem_filter.mp hv).2
      exact of_decide_eq_true h2
    · intro hpos
      exact List.mem_filter.mpr ⟨hperm.mem_iff.mpr hr, decide_eq_true hpos⟩
  · exact List.Nodup.filter _ (hperm.nodup_iff.mpr hnodup)
  · exact List.Pairwise.filter _ (sortDesc_pairwise _)
  · intro c
    have hL : (categoryViewOf (rulesWith c1 c2 c3 c4 c5)).filter (fun a => a.2 == c) =
        (sortDesc (rulesWith c1 c2 c3 c4 c5)).filter
          (fun a => (a.2 == c) && decide (0 < a.2)) := by
      exact List.filter_filter _ _
    have hR : ((rulesWith c1 c2 c3 c4 c5).filter (fun a => decide (0 < a.2))).filter
          (fun a => a.2 == c) =
        (rulesWith c1 c2 c3 c4 c5).filter (fun a => (a.2 == c) && decide (0 < a.2)) := by
      exact List.filter_filter _ _
    rw [hL, hR]
    by_cases hc : c = 0
    · subst hc
      rw [List.filter_eq_nil_iff.mpr ?_, List.filter_eq_nil_iff.mpr ?_]
      · intro a _
        simp
      · intro a _
        simp
    · have hF : (fun (a : String × Nat) => (a.2 == c) && decide (0 < a.2)) =
          (fun a => a.2 == c) := by
        funext a
        by_cases h : a.2 = c
        · have hpc : 0 < c := Nat.pos_of_ne_zero hc
          simp [h, hpc]
        · simp [h]
      rw [hF]
      exact sortDesc_filter_stable c (rulesWith c1 c2 c3 c4 c5)

/-- C8 (witness): at counts (1, 0, 2, 2, 0) the positive-count rule
`Timeout` appears in the view, and at counts (0, 1, 0, 0, 0) the
zero-count rule `Database Config Missing` does not. -/
theorem category_view_C8_witness :
    (nameTimeoutS, 2) ∈ categoryViewOf (rulesWith 1 0 2 2 0) ∧
      ((nameDbS, 0) ∈ categoryViewOf (rulesWith 0 1 0 0 0) → False) := by
  constructor
  · exact ((category_view_C8 1 0 2 2 0).1 (nameTimeoutS, 2) (by decide)).mpr (by decide)
  · intro hmem
    have h := ((category_view_C8 0 1 0 0 0).1 (nameDbS, 0) (by decide)).mp hmem
    omega

def logLineS : String := "log line"

def nlS : String := "\n"

def scenarioLines : List String :=
  List.replicate 10 logLineS ++ [dbPhraseS] ++ List.replicate 9 logLineS

def scenarioContent : Str := (String.intercalate nlS scenarioLines).toList

def dbClaimLineS : String := "Database Config Missing: 1 occurrence"

def dbReportLineS : String := "Database Config Missing: 1 occurrences"

set_option maxRecDepth 40000 in
/-- C4 (counterexample): in the 20-line scenario document with the phrase
on the line of index 10, the category report does not contain the claimed
line `Database Config Missing: 1 occurrence` — the source always prints
the plural `occurrences`, also for a count of 1. -/
theorem category_report_line_C4_counterexample :
    scenarioLines.length = 20 ∧ scenarioLines.getD 10 nlS = dbPhraseS ∧
      dbClaimLineS ∉ categoryLines scenarioContent := by
  refine ⟨rfl, rfl, ?_⟩
  decide

set_option maxRecDepth 40000 in
/-- C4 (amended): for the same scenario the category report is exactly the
single line `Database Config Missing: 1 occurrences` (plural suffix). -/
theorem category_report_line_C4 :
    categoryLines scenarioContent = [dbReportLineS] := by
  decide

def c5ctxS : String := "at f (a.ts:1:2) (b.ts:3:4)"

def c5resS : String := "b.ts:3:4"

def c5firstS : String := "a.ts:1:2"

def c5ctx2S : String := "at g (x.ts:9:9) (y.ts:8:8)"

def c5res2S : String := "y.ts:8:8"

def emptyStr : Str := []

/-- C5 (counterexample): a window holding two call-site-shaped substrings
on one line, `a.ts:1:2` before `b.ts:3:4`: the parser returns the later
one, because the greedy `.*` in the call-site pattern backtracks from the
end of the line and so selects the last parenthesised frame, not the first
in document order. -/
theorem stack_parser_first_C5_counterexample :
    stackParse c5ctxS.toList = (c5resS.toList, unknownStr) ∧
      isSubstr c5firstS.toList c5ctxS.toList = true := by
  decide

/-- C5 (amended): each field of the stack-frame parser comes from the
leftmost-starting match of its pattern (no earlier starting position
matches at all), falling back to `unknown` when the pattern never matches;
but within the line of that match the greedy `.*` keeps the last
parenthesised call site, as the second concrete window shows. -/
theorem stack_parser_first_C5 (ctx : Str) :
    (searchFrom fileMatchAt ctx = none → (stackParse ctx).1 = unknownStr) ∧
    (searchFrom testRefMatchAt ctx = none → (stackParse ctx).2 = unknownStr) ∧
    (∀ (g : Str) (len j : Nat), searchFrom fileMatchAt ctx = some (g, len, j) →
      (stackParse ctx).1 = g ∧ ∀ k, k < j → fileMatchAt (ctx.drop k) = none) ∧
    (∀ (g : Str) (len j : Nat), searchFrom testRefMatchAt ctx = some (g, len, j) →
      (stackParse ctx).2 = g ∧ ∀ k, k < j → testRefMatchAt (ctx.drop k) = none) ∧
    (stackParse c5ctx2S.toList).1 = c5res2S.toList := by
  refine ⟨?_, ?_, ?_, ?_, by decide⟩
  · intro h
    simp [stackParse, h]
  · intro h
    simp [stackParse, h]
  · intro g len j h
    refine ⟨by simp [stackParse, h], ?_⟩
    intro k hk
    have hs := searchFromA_eq_some fileMatchAt ctx 0 g len j h
    exact hs.2.2 k (by omega)
  · intro g len j h
    refine ⟨by simp [stackParse, h], ?_⟩
    intro k hk
    have hs := searchFromA_eq_some testRefMatchAt ctx 0 g len j h
    exact hs.2.2 k (by omega)

/-- C5 (witness): the empty window has no matches and both fields fall back
to `unknown`. -/
theorem stack_parser_first_C5_witness :
    (stackParse emptyStr).1 = unknownStr ∧ (stackParse emptyStr).2 = unknownStr :=
  ⟨(stack_parser_first_C5 emptyStr).1 (by decide),
    (stack_parser_first_C5 emptyStr).2.1 (by decide)⟩

def cexC6lineS : String := "Connection configuration is required for undefined via parseConnectionConfig"

def cexC6occ : Occ := ⟨1, unknownStr, unknownStr, cexC6lineS.toList⟩

/-- C6 (counterexample): an occurrence whose snippet contains the suspect
marker `parseConnectionConfig` but holds no parsable call site: its
call-site reference is `unknown`, the OR condition holds via the marker,
yet nothing at all is tallied — the code tallies only the call-site files
re-parsed from the snippet, not the occurrence's call-site reference. -/
theorem origin_or_C6_counterexample :
    dbConfigErrors [cexC6lineS.toList] = [cexC6occ] ∧
      isSubstr parseCCS.toList cexC6occ.snippet = true ∧
      cexC6occ.file = unknownStr ∧
      originFiles (dbConfigErrors [cexC6lineS.toList]) = [] := by
  decide

/-- C6 (amended): every call-site file parsed from an occurrence's snippet
is tallied into the origin tally as soon as it contains the suspect module
name or the snippet contains the suspect marker — either condition alone
suffices, and the tallied count is positive. -/
theorem origin_or_C6 (errs : List Occ) (err : Occ) (f : Str)
    (herr : err ∈ errs) (hf : f ∈ findallRes originMatchAt err.snippet)
    (hcond : isSubstr dbManagerS.toList f = true ∨
      isSubstr parseCCS.toList err.snippet = true) :
    f ∈ originFiles errs ∧ 0 < lookupC (originTally errs) f := by
  have hmem : f ∈ originFiles errs := by
    unfold originFiles
    refine List.mem_flatMap.mpr ⟨err, herr, ?_⟩
    refine List.mem_filter.mpr ⟨hf, ?_⟩
    cases hcond with
    | inl h =>
      simp only [Bool.or_eq_true]
      exact Or.inl h
    | inr h =>
      simp only [Bool.or_eq_true]
      exact Or.inr h
  refine ⟨hmem, ?_⟩
  have hl : lookupC (originTally errs) f = cnt f (originFiles errs) :=
    lookupC_tally f (originFiles errs)
  rw [hl]
  exact (cnt_pos f (originFiles errs)).mpr hmem

def demoOriginLineS : String := "at x (database.manager.ts:1:2)"

def demoOriginOcc : Occ := ⟨1, unknownStr, unknownStr, demoOriginLineS.toList⟩

/-- C6 (witness): a snippet with one call-site containing the suspect
module name is tallied. -/
theorem origin_or_C6_witness :
    dbManagerS.toList ∈ originFiles [demoOriginOcc] ∧
      0 < lookupC (originTally [demoOriginOcc]) dbManagerS.toList :=
  origin_or_C6 [demoOriginOcc] demoOriginOcc dbManagerS.toList (by decide) (by decide)
    (Or.inl (by decide))
